import Mathlib

set_option maxHeartbeats 1000000

/-!
Shallow embedding of `tfa/plotting.py` (histogramming and plotting glue for
physics distributions).  Numeric arrays are modelled as `List ℚ` (exact
rational arithmetic in place of IEEE floats; none of the verified claims
depends on floating-point rounding), optional arguments as `Option`,
and fallible numpy calls as `Option`-returning functions.  Drawing-surface
mutation is modelled as an explicit event trace.
-/

/-- Python truthiness of an optional string argument (`if units :`):
`None` and the empty string are falsy, every other string is truthy. -/
def pyTruthy : Option String → Bool
  | none => false
  | some s => !(s == "")

/-- Embedding of `label_title` (plotting.py lines 45-48).  The local
binding `label` mirrors the source line `label = title`; the source then
rebinds `title` itself when appending the unit suffix and returns `title`. -/
def label_title (title : String) (units : Option String := none) : String :=
  let label := title
  let title := if pyTruthy units then title ++ " (" ++ units.getD "" ++ ")" else title
  title

/-- Modelled from Python semantics: `str` of a float, restricted to the
integral values exercised by the spec's test points (e.g. `str(2.0) = "2.0"`).
Non-terminating decimal expansions are not modelled. -/
def pyStrFloat (q : ℚ) : String :=
  if q.den = 1 then toString q.num ++ ".0" else toString q

/-- Modelled from Python semantics: general ("g") float formatting, restricted
to the integral values exercised by the spec's test points (e.g. 2.0 prints
as "2"). -/
def pyFmtG (q : ℚ) : String :=
  if q.den = 1 then toString q.num else toString q

/-- Embedding of `y_label_title` (plotting.py lines 50-56): bin width is
the range width divided by the bin count; the no-units format is chosen
only when `units == None`. -/
def y_label_title (range : ℚ × ℚ) (bins : ℕ) (units : Option String := none) : String :=
  let binw : ℚ := (range.2 - range.1) / bins
  if units = none then "Entries/" ++ pyStrFloat binw
  else "Entries/(" ++ pyFmtG binw ++ " " ++ units.getD "" ++ ")"


/-- Truncation toward zero of a rational, as numpy's `astype(np.int_)` cast
behaves on float values. -/
def ratTrunc (q : ℚ) : ℤ := q.num.sign * ((q.num.natAbs / q.den : ℕ) : ℤ)

/-- Per-axis bin index of `fasthist2d` (plotting.py line 78/79):
`(v - lo) / (hi - lo) * b` cast to integer. -/
def binIdx (lo hi : ℚ) (b : ℕ) (v : ℚ) : ℤ := ratTrunc ((v - lo) / (hi - lo) * b)

/-- The boolean range mask of `fasthist2d` (plotting.py line 77):
`lo1 ≤ x < hi1` and `lo2 ≤ y < hi2`. -/
def cutsB (ranges : (ℚ × ℚ) × (ℚ × ℚ)) (p : ℚ × ℚ) : Bool :=
  decide (ranges.1.1 ≤ p.1) && decide (p.1 < ranges.1.2) &&
  decide (ranges.2.1 ≤ p.2) && decide (p.2 < ranges.2.2)

/-- Embedding of `np.bincount(c, minlength, weights)`: fails (`none`) on a
negative index or when a weights array of a different length than `c` is
supplied; otherwise bucket-sums the weights (or counts occurrences). -/
def bincount (c : List ℤ) (minlength : ℕ) (weights : Option (List ℚ)) : Option (List ℚ) :=
  if c.any (fun i => i < 0) then none
  else
    let len := max minlength (c.foldr (fun i m => max (i.toNat + 1) m) 0)
    match weights with
    | none => some ((List.range len).map (fun i => ((c.count (i : ℤ) : ℕ) : ℚ)))
    | some w =>
      if w.length = c.length then
        some ((List.range len).map (fun i =>
          (((c.zip w).filter (fun p => p.1 = (i : ℤ))).map (fun p => p.2)).sum))
      else none

/-- Embedding of `np.linspace(lo, hi, num)` (evenly spaced sample points). -/
def npLinspace (lo hi : ℚ) (num : ℕ) : List ℚ :=
  (List.range num).map (fun i => lo + (hi - lo) * i / (num - 1))

/-- Reshape of a flat array to `rows` rows of `cols` entries
(numpy `reshape(rows, cols)` in row-major order). -/
def reshape2 (l : List ℚ) (rows cols : ℕ) : List (List ℚ) :=
  (List.range rows).map (fun r => (l.drop (r * cols)).take cols)

/-- Embedding of the nested `fasthist2d` of `plot_distr2d` (plotting.py
lines 75-81).  The range mask keeps samples with `lo ≤ v < hi` on both axes;
flat bin index is `ix + bx*iy`; the FULL (unmasked) weights array is handed
to `bincount`, exactly as in the source (`weights = weights`); the flat array
is reshaped to `(by, bx)` and returned with both bin-edge sequences. -/
def fasthist2d (xvals yvals : List ℚ) (bins : ℕ × ℕ) (ranges : (ℚ × ℚ) × (ℚ × ℚ))
    (weights : Option (List ℚ)) : Option (List (List ℚ) × List ℚ × List ℚ) :=
  let cut := (xvals.zip yvals).filter (cutsB ranges)
  let c := cut.map (fun p =>
    binIdx ranges.1.1 ranges.1.2 bins.1 p.1 + bins.1 * binIdx ranges.2.1 ranges.2.2 bins.2 p.2)
  match bincount c (bins.1 * bins.2) weights with
  | none => none
  | some H => some (reshape2 H bins.2 bins.1,
      npLinspace ranges.1.1 ranges.1.2 (bins.1 + 1),
      npLinspace ranges.2.1 ranges.2.2 (bins.2 + 1))

/-- Embedding of `np.max` over a flattened grid (`none` on an empty array,
where numpy raises). -/
def npMax : List ℚ → Option ℚ
  | [] => none
  | a :: l => some (l.foldl max a)

/-- Embedding of `np.min` over a flattened grid (`none` on an empty array,
where numpy raises). -/
def npMin : List ℚ → Option ℚ
  | [] => none
  | a :: l => some (l.foldl min a)

/-- Embedding of the log-scale color normalization bounds of `plot_distr2d`
(plotting.py lines 88-93): `vmax = max(counts)`, `vmin = min(counts)`, then
`vmin` is floored to 1 when nonpositive and `vmax` floored to `vmin` when not
greater; `LogNorm(vmin, vmax)` is modelled as the resulting pair. -/
def logNormBounds (counts : List ℚ) : Option (ℚ × ℚ) :=
  match npMax counts, npMin counts with
  | some vmax0, some vmin0 =>
    let vmin := if vmin0 ≤ 0 then 1 else vmin0
    some (vmin, if vmax0 ≤ vmin then vmin else vmax0)
  | _, _ => none


/-- Python truthiness of the optional `weights` argument of the comparison
renderer (`if weights :`): absent or empty is falsy, nonempty is truthy. -/
def pyTruthyWeights : Option (List ℚ) → Bool
  | none => false
  | some w => !w.isEmpty

/-- Bin index of `np.histogram(arr, bins, range)` with uniform bins: values
outside the closed range are excluded, inner bin upper edges are exclusive,
and the last bin includes the upper range bound. -/
def histBinIdx (r : ℚ × ℚ) (bins : ℕ) (v : ℚ) : Option ℕ :=
  if r.1 ≤ v ∧ v ≤ r.2 then
    some (if ratTrunc ((v - r.1) / (r.2 - r.1) * bins) = bins then bins - 1
          else (ratTrunc ((v - r.1) / (r.2 - r.1) * bins)).toNat)
  else none

/-- Embedding of `np.histogram(arr, bins, range, weights)` (defined for a
weights array of the same length as `arr`; numpy raises otherwise): per-bin
sums of the weights (1 when absent) of the samples falling in each bin. -/
def npHistogram (arr : List ℚ) (bins : ℕ) (r : ℚ × ℚ) (weights : Option (List ℚ)) : List ℚ :=
  let ws := match weights with
    | none => arr.map (fun _ => (1 : ℚ))
    | some w => w
  (List.range bins).map (fun i =>
    (((arr.zip ws).filter (fun p => histBinIdx r bins p.1 = some i)).map (fun p => p.2)).sum)

/-- The bin-edge array `np.histogram` returns: `np.linspace(low, high, bins+1)`. -/
def binEdges (r : ℚ × ℚ) (bins : ℕ) : List ℚ := npLinspace r.1 r.2 (bins + 1)

/-- Embedding of `np.array([a, b]).T.flatten()` on two equal-length arrays:
elementwise interleaving, used to build step polylines from (left, right)
edges and duplicated counts. -/
def transposeFlatten (a b : List ℚ) : List ℚ := (a.zip b).flatMap (fun p => [p.1, p.2])

/-- The bin centers `(left + right) / 2` used for the data error bars and
the component curves of the comparison renderer. -/
def binCenters (r : ℚ × ℚ) (bins : ℕ) : List ℚ :=
  ((binEdges r bins).dropLast.zip (binEdges r bins).tail).map (fun p => (p.1 + p.2) / 2)

/-- The model rescaling factor of `plot_distr1d_comparison` (plotting.py
line 198): `np.sum(datahist) / np.sum(fithist1)`. -/
def fitscale (data fit : List ℚ) (bins : ℕ) (r : ℚ × ℚ) (weights : Option (List ℚ)) : ℚ :=
  (npHistogram data bins r none).sum / (npHistogram fit bins r weights).sum

/-- The rescaled model histogram `fithist = fithist1 * fitscale`
(plotting.py line 199). -/
def scaled_fithist (data fit : List ℚ) (bins : ℕ) (r : ℚ × ℚ)
    (weights : Option (List ℚ)) : List ℚ :=
  (npHistogram fit bins r weights).map (fun h => h * fitscale data fit bins r weights)

/-- The twin-x secondary axis created for the pull sub-panel of the
comparison renderer: its y display limits and the x array of the pull step
polyline plotted on it. -/
structure TwinAxis where
  ylimBottom : ℚ
  ylimTop : ℚ
  plotX : List ℚ
  deriving DecidableEq

/-- Result record of `plot_distr1d_comparison`: every array handed to a
drawing call, and the list of created twin axes which is also the return
value of the function. -/
structure ComparisonPlot where
  datahist : List ℚ
  fithist1 : List ℚ
  fithist : List ℚ
  stepX : List ℚ
  fitStepY : List ℚ
  dataStepY : List ℚ
  dataCenters : List ℚ
  components : List (List ℚ × List ℚ)
  pullAxes : List TwinAxis
  deriving DecidableEq

/-- Embedding of `plot_distr1d_comparison` (plotting.py lines 180-253),
modelling the arrays handed to the drawing calls and the created/returned
twin axes; colors, legend handling and alpha are cosmetic and omitted.
The data histogram is unweighted, the model histogram takes `weights`, the
model step line is scaled by `fitscale`; each component curve (lines
206-221) is plotted against the bin centers, with effective weight
`w * weights` when the shared weights argument is truthy and `w` alone
otherwise, scaled by the same `fitscale`; with `pull` set, one twin axis
with display range -10..10 is created and returned (lines 246-252). -/
def plot_distr1d_comparison (data fit : List ℚ) (bins : ℕ) (r : ℚ × ℚ)
    (weights : Option (List ℚ)) (pull : Bool) (cweights : Option (List (List ℚ))) :
    ComparisonPlot :=
  let datahist := npHistogram data bins r none
  let fithist := scaled_fithist data fit bins r weights
  let edges := binEdges r bins
  let left := edges.dropLast
  let right := edges.tail
  { datahist := datahist
    fithist1 := npHistogram fit bins r weights
    fithist := fithist
    stepX := transposeFlatten left right
    fitStepY := transposeFlatten fithist fithist
    dataStepY := transposeFlatten datahist datahist
    dataCenters := binCenters r bins
    components :=
      (match cweights with
      | none => []
      | some cws => cws.map (fun w =>
          let w2 := if pyTruthyWeights weights then w.zipWith (fun a b => a * b) (weights.getD [])
                    else w
          (binCenters r bins,
           (npHistogram fit bins r (some w2)).map (fun h => h * fitscale data fit bins r weights))))
    pullAxes := if pull then [⟨-10, 10, transposeFlatten left right⟩] else [] }

/-- The per-bin pull array of the comparison renderer (plotting.py lines
242-244): `(datahist - fithist) / np.sqrt(datahist)` evaluated with divide
errors ignored, then overwritten with 0 wherever the data count is 0;
elementwise the resulting value is 0 for a zero data count and the real
quotient otherwise. -/
noncomputable def pullhist (datahist fithist : List ℚ) : List ℝ :=
  (datahist.zip fithist).map (fun p =>
    if p.1 = 0 then 0 else (((p.1 : ℚ) : ℝ) - ((p.2 : ℚ) : ℝ)) / Real.sqrt ((p.1 : ℚ) : ℝ))

/-- The duplicated pull polyline `np.array([pullhist, pullhist]).T.flatten()`
(plotting.py line 245) on the real pull values. -/
noncomputable def pullArr (datahist fithist : List ℚ) : List ℝ :=
  ((pullhist datahist fithist).zip (pullhist datahist fithist)).flatMap (fun p => [p.1, p.2])


/-- Events of the drawing-surface trace of the Multidim Display: removing a
tracked twin axis, clearing a grid panel, creating a pull twin axis, and
redrawing a 2D density panel with the given colorbar option. -/
inductive DrawEvent where
  | removeAxis (id : ℕ)
  | clearAxis (pos : ℕ × ℕ)
  | createOverlay (id : ℕ)
  | plot2d (pos : ℕ × ℕ) (colorbar : Bool)
  deriving DecidableEq

/-- State of `MultidimDisplay` (plotting.py lines 276-301): the sample
arrays (row major), binning data, the `first` one-way flag, the tracked
transient twin axes (`newaxes`), and a fresh-identifier counter modelling
the distinct axis objects returned by `twinx()`. -/
structure MultidimDisplay where
  dim : ℕ
  data : List (List ℚ)
  norm : List (List ℚ)
  bins : List ℕ
  ranges : List (ℚ × ℚ)
  size : ℕ
  first : Bool
  newaxes : List ℕ
  nextId : ℕ

/-- Column `i` of a row-major sample matrix (`data[:, i]`). -/
def column (m : List (List ℚ)) (i : ℕ) : List ℚ := m.map (fun row => row.getD i 0)

/-- The pairs (i, j) with j < i < dim, in the iteration order of the nested
loops of the display. -/
def pairList (dim : ℕ) : List (ℕ × ℕ) :=
  (List.range dim).flatMap (fun i => (List.range i).map (fun j => (i, j)))

/-- Panel position of the n-th 2D pair drawn by the constructor
(plotting.py lines 294-297). -/
def init2dPos (dim n : ℕ) : ℕ × ℕ :=
  if dim % 2 = 0 then (n / (dim / 2) + 1, 2 * (n % (dim / 2)))
  else (2 * (n / dim) + 1, n % dim)

/-- Panel position of the n-th 2D pair redrawn by `draw`
(plotting.py lines 319-322). -/
def draw2dPos (dim n : ℕ) : ℕ × ℕ :=
  if dim % 2 = 0 then (n / (dim / 2) + 1, 2 * (n % (dim / 2)) + 1)
  else (2 * (n / dim) + 2, n % dim)

/-- The 1D-panel loop of `MultidimDisplay.draw` (plotting.py lines
309-314): clear panel (0, i), redraw the comparison with `pull = True`
(which creates one twin axis per panel), and collect the created axes;
fresh axis identifiers are drawn from the counter `nid`. -/
def draw1dLoop (s : MultidimDisplay) (sw : List ℚ) : List ℕ → ℕ → List ℕ × List DrawEvent
  | [], _ => ([], [])
  | i :: rest, nid =>
    let res := plot_distr1d_comparison (column s.data i) (column s.norm i)
        (s.bins.getD i 0) (s.ranges.getD i (0, 0)) (some sw) true none
    let created := (List.range res.pullAxes.length).map (fun k => nid + k)
    let tailRes := draw1dLoop s sw rest (nid + res.pullAxes.length)
    (created ++ tailRes.1,
     DrawEvent.clearAxis (0, i) :: (created.map DrawEvent.createOverlay ++ tailRes.2))

/-- The 2D-panel loop of `MultidimDisplay.draw` (plotting.py lines
316-328): clear each pair panel and redraw the density map passing the
current `first` flag as the colorbar option.  The weight payload of the
plot call is not recorded in the event. -/
def draw2dEvents (dim : ℕ) (first : Bool) : List DrawEvent :=
  (pairList dim).enum.flatMap (fun p =>
    [DrawEvent.clearAxis (draw2dPos dim p.1), DrawEvent.plot2d (draw2dPos dim p.1) first])

/-- Embedding of the `MultidimDisplay` constructor (plotting.py lines
277-301): fields from the arguments, `first := True`, empty `newaxes`, and
the initial 2D panels drawn with the default `colorbar = True`. -/
def MultidimDisplay.init (data norm : List (List ℚ)) (bins : List ℕ)
    (ranges : List (ℚ × ℚ)) : MultidimDisplay × List DrawEvent :=
  let dim := (data.headD []).length
  ({ dim := dim, data := data, norm := norm, bins := bins, ranges := ranges,
     size := data.length, first := true, newaxes := [], nextId := 0 },
   (pairList dim).enum.map (fun p => DrawEvent.plot2d (init2dPos dim p.1) true))

/-- Embedding of `MultidimDisplay.draw` (plotting.py lines 303-330):
normalize the weights by `size / sum(weights)`, remove every tracked twin
axis, reset the tracking list, redraw the 1D panels (collecting the newly
created twin axes), redraw the 2D panels passing the current `first` flag
as the colorbar option, and finally set `first := False`. -/
def MultidimDisplay.draw (s : MultidimDisplay) (weights : List ℚ) :
    MultidimDisplay × List DrawEvent :=
  let scale : ℚ := (s.size : ℚ) / weights.sum
  let sw := weights.map (fun x => scale * x)
  let oneD := draw1dLoop s sw (List.range s.dim) s.nextId
  ({ s with newaxes := oneD.1, nextId := s.nextId + oneD.1.length, first := false },
   s.newaxes.map DrawEvent.removeAxis ++ oneD.2 ++ draw2dEvents s.dim s.first)

/-- String with at least one character has positive length. -/
theorem length_pos_of_ne_empty (s : String) (h : s ≠ "") : 0 < s.length := by
  rcases s with ⟨d⟩
  cases d with
  | nil => exact absurd rfl h
  | cons c cs => simp [String.length]

/-- C2 counterexample: with non-empty units the returned string is the name
with the unit suffix appended, not the unchanged name. -/
theorem label_title_returns_units_counterexample :
    label_title "m" (some "MeV") = "m (MeV)" ∧ "m (MeV)" ≠ "m" := by
  constructor
  · rfl
  · decide

/-- C2 (amended): `label_title` returns the name unchanged when `units` is
falsy (None or empty), and returns the name with the suffix appended when
`units` is a non-empty string — in the source the discarded local copy is
`label`, while the returned variable `title` receives the suffix, so the
returned string does contain the units. -/
theorem label_title_appends_units (t : String) (u : Option String) :
    (pyTruthy u = false → label_title t u = t)
    ∧ (∀ s, u = some s → s ≠ "" →
        label_title t u = t ++ " (" ++ s ++ ")" ∧ label_title t u ≠ t) := by
  constructor
  · intro h
    simp [label_title, h]
  · intro s hu hs
    subst hu
    have htruthy : pyTruthy (some s) = true := by
      simp [pyTruthy, hs]
    have heq : label_title t (some s) = t ++ " (" ++ s ++ ")" := by
      simp [label_title, htruthy]
    refine ⟨heq, ?_⟩
    rw [heq]
    intro hcontra
    have hlen := congrArg String.length hcontra
    rw [String.length_append, String.length_append, String.length_append] at hlen
    have hpos : 0 < s.length := length_pos_of_ne_empty s hs
    have h2 : (" (" : String).length = 2 := rfl
    have h3 : (")" : String).length = 1 := rfl
    rw [h2, h3] at hlen
    omega

/-- C2 witness: concrete application of the amended theorem. -/
theorem label_title_appends_units_witness :
    label_title "m" (some "MeV") = "m (MeV)" ∧ label_title "m" (some "MeV") ≠ "m" := by
  have h := (label_title_appends_units "m" (some "MeV")).2 "MeV" rfl (by decide)
  exact ⟨h.1.trans (by decide), h.2⟩

/-- Evaluation helper: bin width of range (0, 10) with 5 bins is 2. -/
theorem binw_ten_five : (((0:ℚ), (10:ℚ)).2 - ((0:ℚ), (10:ℚ)).1) / ((5:ℕ) : ℚ) = 2 := by
  norm_num

/-- Evaluation helper: general formatting prints the integral value 2 as "2". -/
theorem pyFmtG_two : pyFmtG 2 = "2" := by
  unfold pyFmtG
  rw [if_pos (Rat.den_ofNat 2)]
  rw [show ((2:ℚ).num) = 2 from Rat.num_ofNat 2]
  decide

/-- Evaluation helper: float printing shows the integral value 2 as "2.0". -/
theorem pyStrFloat_two : pyStrFloat 2 = "2.0" := by
  unfold pyStrFloat
  rw [if_pos (Rat.den_ofNat 2)]
  rw [show ((2:ℚ).num) = 2 from Rat.num_ofNat 2]
  decide

/-- C10: `y_label_title` selects the no-units format only when units is
exactly None; a falsy non-None units value such as the empty string takes
the units branch, interpolating the empty string after the bin width, which
is not the no-units form. -/
theorem y_label_title_empty_units_branch (r : ℚ × ℚ) (bins : ℕ) (hb : 0 < bins) :
    y_label_title r bins (some "") = "Entries/(" ++ pyFmtG ((r.2 - r.1) / (bins : ℚ)) ++ " )"
    ∧ y_label_title (0, 10) 5 (some "") = "Entries/(2 )"
    ∧ y_label_title (0, 10) 5 (some "") ≠ y_label_title (0, 10) 5 none := by
  have hform : ∀ (r' : ℚ × ℚ) (b' : ℕ),
      y_label_title r' b' (some "") = "Entries/(" ++ pyFmtG ((r'.2 - r'.1) / (b' : ℚ)) ++ " )" := by
    intro r' b'
    show "Entries/(" ++ pyFmtG ((r'.2 - r'.1) / (b' : ℚ)) ++ " " ++ "" ++ ")" = _
    rw [String.append_empty, String.append_assoc]
    rfl
  have hval : y_label_title (0, 10) 5 (some "") = "Entries/(2 )" := by
    rw [hform, binw_ten_five, pyFmtG_two]
    decide
  refine ⟨hform r bins, hval, ?_⟩
  rw [hval]
  have hnone : y_label_title (0, 10) 5 none = "Entries/2.0" := by
    show "Entries/" ++ pyStrFloat _ = _
    rw [binw_ten_five, pyStrFloat_two]
    decide
  rw [hnone]
  decide

/-- C10 witness: concrete application with a positive bin count. -/
theorem y_label_title_empty_units_branch_witness :
    y_label_title (0, 10) 5 (some "") = "Entries/(2 )" := by
  exact (y_label_title_empty_units_branch (0, 10) 5 (by decide)).2.1

/-- Left fold of `max` over a list returns the seed or a list element. -/
theorem foldl_max_mem (l : List ℚ) : ∀ a : ℚ, l.foldl max a = a ∨ l.foldl max a ∈ l := by
  induction l with
  | nil => intro a; left; rfl
  | cons b t ih =>
    intro a
    rcases ih (max a b) with h | h
    · rcases max_choice a b with hm | hm
      · left; rw [List.foldl_cons, h, hm]
      · right; rw [List.foldl_cons, h, hm]; exact List.mem_cons_self b t
    · right; exact List.mem_cons_of_mem b h

/-- Left fold of `max` bounds the seed and every list element from above. -/
theorem foldl_max_ub (l : List ℚ) :
    ∀ a : ℚ, a ≤ l.foldl max a ∧ ∀ c ∈ l, c ≤ l.foldl max a := by
  induction l with
  | nil => intro a; exact ⟨le_refl a, by simp⟩
  | cons b t ih =>
    intro a
    have h1 := (ih (max a b)).1
    refine ⟨le_trans (le_max_left a b) h1, ?_⟩
    intro c hc
    rcases List.mem_cons.mp hc with rfl | hc
    · exact le_trans (le_max_right a c) h1
    · exact (ih (max a b)).2 c hc

/-- Left fold of `min` over a list returns the seed or a list element. -/
theorem foldl_min_mem (l : List ℚ) : ∀ a : ℚ, l.foldl min a = a ∨ l.foldl min a ∈ l := by
  induction l with
  | nil => intro a; left; rfl
  | cons b t ih =>
    intro a
    rcases ih (min a b) with h | h
    · rcases min_choice a b with hm | hm
      · left; rw [List.foldl_cons, h, hm]
      · right; rw [List.foldl_cons, h, hm]; exact List.mem_cons_self b t
    · right; exact List.mem_cons_of_mem b h

/-- Left fold of `min` bounds the seed and every list element from below. -/
theorem foldl_min_lb (l : List ℚ) :
    ∀ a : ℚ, l.foldl min a ≤ a ∧ ∀ c ∈ l, l.foldl min a ≤ c := by
  induction l with
  | nil => intro a; exact ⟨le_refl a, by simp⟩
  | cons b t ih =>
    intro a
    have h1 := (ih (min a b)).1
    refine ⟨le_trans h1 (min_le_left a b), ?_⟩
    intro c hc
    rcases List.mem_cons.mp hc with rfl | hc
    · exact le_trans h1 (min_le_right a c)
    · exact (ih (min a b)).2 c hc

/-- C4: in `plot_distr2d` with log scaling, `vmin` is the minimum positive
count of the grid (it is the overall minimum when all counts are positive,
and is set to 1 as soon as some count is nonpositive), `vmax` is the maximum
count unless not greater than `vmin` in which case it is set to `vmin`, and
the resulting normalization interval satisfies `vmin ≤ vmax`. -/
theorem plot_distr2d_lognorm_bounds (counts : List ℚ) (vmin vmax : ℚ)
    (h : logNormBounds counts = some (vmin, vmax)) :
    ((∃ c ∈ counts, c ≤ 0) → vmin = 1)
    ∧ ((∀ c ∈ counts, 0 < c) → vmin ∈ counts ∧ ∀ c ∈ counts, vmin ≤ c)
    ∧ vmin ≤ vmax
    ∧ ((∃ c ∈ counts, vmin < c) → vmax ∈ counts ∧ ∀ c ∈ counts, c ≤ vmax)
    ∧ ((∀ c ∈ counts, c ≤ vmin) → vmax = vmin) := by
  cases counts with
  | nil => simp [logNormBounds, npMax, npMin] at h
  | cons a l =>
    have hinj : vmin = (if l.foldl min a ≤ 0 then 1 else l.foldl min a)
        ∧ vmax = (if l.foldl max a ≤ (if l.foldl min a ≤ 0 then 1 else l.foldl min a)
            then (if l.foldl min a ≤ 0 then 1 else l.foldl min a) else l.foldl max a) := by
      simp only [logNormBounds, npMax, npMin, Option.some.injEq, Prod.mk.injEq] at h
      exact ⟨h.1.symm, h.2.symm⟩
    have hMmem : l.foldl max a ∈ a :: l := by
      rcases foldl_max_mem l a with h' | h'
      · rw [h']; exact List.mem_cons_self a l
      · exact List.mem_cons_of_mem a h'
    have hMub : ∀ c ∈ a :: l, c ≤ l.foldl max a := by
      intro c hc
      rcases List.mem_cons.mp hc with rfl | hc
      · exact (foldl_max_ub l c).1
      · exact (foldl_max_ub l a).2 c hc
    have hmmem : l.foldl min a ∈ a :: l := by
      rcases foldl_min_mem l a with h' | h'
      · rw [h']; exact List.mem_cons_self a l
      · exact List.mem_cons_of_mem a h'
    have hmlb : ∀ c ∈ a :: l, l.foldl min a ≤ c := by
      intro c hc
      rcases List.mem_cons.mp hc with rfl | hc
      · exact (foldl_min_lb l c).1
      · exact (foldl_min_lb l a).2 c hc
    refine ⟨?_, ?_, ?_, ?_, ?_⟩
    · rintro ⟨c, hc, hc0⟩
      have hm0 : l.foldl min a ≤ 0 := le_trans (hmlb c hc) hc0
      rw [hinj.1, if_pos hm0]
    · intro hall
      have hm0 : ¬ l.foldl min a ≤ 0 := not_le.mpr (hall _ hmmem)
      rw [hinj.1, if_neg hm0]
      exact ⟨hmmem, hmlb⟩
    · rw [hinj.2]
      by_cases hc : l.foldl max a ≤ (if l.foldl min a ≤ 0 then 1 else l.foldl min a)
      · rw [if_pos hc]; rw [hinj.1]
      · rw [if_neg hc]; rw [hinj.1]; exact le_of_lt (not_le.mp hc)
    · rintro ⟨c, hc, hvc⟩
      have hlt : ¬ l.foldl max a ≤ (if l.foldl min a ≤ 0 then 1 else l.foldl min a) := by
        rw [← hinj.1]
        exact not_le.mpr (lt_of_lt_of_le hvc (hMub c hc))
      rw [hinj.2, if_neg hlt]
      exact ⟨hMmem, hMub⟩
    · intro hall
      have hle : l.foldl max a ≤ (if l.foldl min a ≤ 0 then 1 else l.foldl min a) := by
        rw [← hinj.1]
        exact hall _ hMmem
      rw [hinj.2, if_pos hle, hinj.1]

/-- C4 witness: the grid with counts 0, 5, 7 gets the normalization
interval (1, 7), and the theorem yields its validity. -/
theorem plot_distr2d_lognorm_bounds_witness :
    logNormBounds [0, 5, 7] = some (1, 7) ∧ (1 : ℚ) ≤ 7 := by
  have heval : logNormBounds [0, 5, 7] = some (1, 7) := by
    norm_num [logNormBounds, npMax, npMin, max_def, min_def]
  exact ⟨heval, (plot_distr2d_lognorm_bounds [0, 5, 7] 1 7 heval).2.2.1⟩

/-- Truncation of zero is zero. -/
theorem ratTrunc_zero : ratTrunc 0 = 0 := by
  unfold ratTrunc
  rw [show ((0 : ℚ).num) = 0 from Rat.num_ofNat 0]
  simp

/-- A bin index computed at the lower range bound is zero (the numerator
`v - lo` vanishes). -/
theorem binIdx_lower_bound (lo hi : ℚ) (b : ℕ) : binIdx lo hi b lo = 0 := by
  unfold binIdx
  rw [show (lo - lo) / (hi - lo) * (b : ℚ) = 0 by rw [sub_self, zero_div, zero_mul]]
  exact ratTrunc_zero

/-- Zipping commutes with erasing the same index on both lists. -/
theorem zip_eraseIdx (xs : List ℚ) :
    ∀ (ys : List ℚ) (k : ℕ), (xs.eraseIdx k).zip (ys.eraseIdx k) = (xs.zip ys).eraseIdx k := by
  induction xs with
  | nil => intro ys k; simp
  | cons x xt ih =>
    intro ys k
    cases ys with
    | nil => simp
    | cons y yt =>
      cases k with
      | zero => rfl
      | succ k' => exact congrArg (fun l => ((x, y) : ℚ × ℚ) :: l) (ih yt k')

/-- Erasing an element on which the predicate is false does not change the
filtered list. -/
theorem filter_eraseIdx_not {α : Type} (f : α → Bool) :
    ∀ (l : List α) (k : ℕ) (hk : k < l.length), f (l.get ⟨k, hk⟩) = false →
      (l.eraseIdx k).filter f = l.filter f := by
  intro l
  induction l with
  | nil => intro k hk; simp at hk
  | cons a t ih =>
    intro k hk hf
    cases k with
    | zero =>
      simp only [List.get] at hf
      simp [List.eraseIdx, List.filter_cons, hf]
    | succ k' =>
      simp only [List.get] at hf
      have hk' : k' < t.length := by simpa using hk
      simp only [List.eraseIdx, List.filter_cons]
      rw [ih k' hk' hf]

/-- A pair with a coordinate at the upper range bound of its axis fails the
range mask (the strict upper comparison). -/
theorem cutsB_eq_false_of_eq_high (ranges : (ℚ × ℚ) × (ℚ × ℚ)) (p : ℚ × ℚ)
    (h : p.1 = ranges.1.2 ∨ p.2 = ranges.2.2) : cutsB ranges p = false := by
  rcases h with h | h <;> simp [cutsB, h]

/-- C9: in `fasthist2d`, a sample whose coordinate on either axis equals the
upper range bound fails the mask and contributes to no bin: deleting it from
the input arrays leaves the whole output unchanged.  A sample coordinate at
the lower range bound gets per-axis bin index 0. -/
theorem fasthist2d_edge_bounds (xs ys : List ℚ) (bins : ℕ × ℕ)
    (ranges : (ℚ × ℚ) × (ℚ × ℚ)) (k : ℕ) (hk : k < (xs.zip ys).length) :
    ((((xs.zip ys).get ⟨k, hk⟩).1 = ranges.1.2 ∨ ((xs.zip ys).get ⟨k, hk⟩).2 = ranges.2.2) →
       fasthist2d xs ys bins ranges none
         = fasthist2d (xs.eraseIdx k) (ys.eraseIdx k) bins ranges none)
    ∧ (((xs.zip ys).get ⟨k, hk⟩).1 = ranges.1.1 →
       binIdx ranges.1.1 ranges.1.2 bins.1 ((xs.zip ys).get ⟨k, hk⟩).1 = 0)
    ∧ (((xs.zip ys).get ⟨k, hk⟩).2 = ranges.2.1 →
       binIdx ranges.2.1 ranges.2.2 bins.2 ((xs.zip ys).get ⟨k, hk⟩).2 = 0) := by
  refine ⟨?_, ?_, ?_⟩
  · intro h
    have hcut : cutsB ranges ((xs.zip ys).get ⟨k, hk⟩) = false :=
      cutsB_eq_false_of_eq_high ranges _ h
    unfold fasthist2d
    rw [zip_eraseIdx xs ys k, filter_eraseIdx_not (cutsB ranges) (xs.zip ys) k hk hcut]
  · intro h
    rw [h]
    exact binIdx_lower_bound ranges.1.1 ranges.1.2 bins.1
  · intro h
    rw [h]
    exact binIdx_lower_bound ranges.2.1 ranges.2.2 bins.2

/-- C9 witness: with range (0,1) on both axes, the sample (1, 0) sits at the
x upper bound and deleting it leaves the histogram output unchanged, while
the sample (0, 0) at the lower bounds has x bin index 0. -/
theorem fasthist2d_edge_bounds_witness :
    (fasthist2d [1, 0] [0, 0] (1, 1) ((0, 1), (0, 1)) none
       = fasthist2d [0] [0] (1, 1) ((0, 1), (0, 1)) none)
    ∧ binIdx 0 1 1 ((([1, 0].zip [0, 0]).get ⟨1, by decide⟩).1) = 0 := by
  constructor
  · exact (fasthist2d_edge_bounds [1, 0] [0, 0] (1, 1) ((0, 1), (0, 1)) 0 (by decide)).1
      (Or.inl rfl)
  · exact (fasthist2d_edge_bounds [1, 0] [0, 0] (1, 1) ((0, 1), (0, 1)) 1 (by decide)).2.1 rfl

/-- C1 (code bug evidence): `fasthist2d` hands the FULL, unmasked weights
array to `np.bincount` while the index array `c` only covers samples that
survive the range mask.  With weights supplied and one sample out of range
the lengths disagree and the call fails (numpy raises ValueError), instead
of returning a grid summing to the in-range weight total; without weights
the same input succeeds and the grid total equals the in-range sample
count (here 1). -/
theorem fasthist2d_unmasked_weights_error :
    fasthist2d [0, 5] [0, 0] (1, 1) ((0, 2), (0, 2)) (some [1, 1]) = none
    ∧ fasthist2d [0, 5] [0, 0] (1, 1) ((0, 2), (0, 2)) none = some ([[1]], [0, 2], [0, 2]) := by
  have h1 : cutsB ((0, 2), (0, 2)) ((0 : ℚ), (0 : ℚ)) = true := by norm_num [cutsB]
  have h2 : cutsB ((0, 2), (0, 2)) ((5 : ℚ), (0 : ℚ)) = false := by norm_num [cutsB]
  have hfilter : (([0, 5] : List ℚ).zip [0, 0]).filter (cutsB ((0, 2), (0, 2))) = [(0, 0)] := by
    show ([((0 : ℚ), (0 : ℚ)), (5, 0)]).filter (cutsB ((0, 2), (0, 2))) = [(0, 0)]
    rw [List.filter_cons, if_pos h1, List.filter_cons, if_neg (by simp [h2]), List.filter_nil]
  have hbin : binIdx 0 2 1 (0 : ℚ) = 0 := by
    unfold binIdx
    rw [show ((0 : ℚ) - 0) / (2 - 0) * ((1 : ℕ) : ℚ) = 0 by norm_num]
    exact ratTrunc_zero
  constructor
  · simp only [fasthist2d]
    rw [hfilter]
    simp only [List.map_cons, List.map_nil]
    norm_num [hbin]
    rw [show bincount [(0 : ℤ)] 1 (some [1, 1]) = none from rfl]
  · have hbc2 : bincount [(0 : ℤ)] 1 none = some [(1 : ℚ)] := by
      show some [((1 : ℕ) : ℚ)] = some [(1 : ℚ)]
      norm_num
    have hlin : npLinspace 0 2 2 = [0, 2] := by
      simp only [npLinspace, show List.range 2 = [0, 1] from rfl, List.map_cons, List.map_nil]
      norm_num
    simp only [fasthist2d]
    rw [hfilter]
    simp only [List.map_cons, List.map_nil]
    norm_num [hbin]
    rw [hbc2]
    show some (reshape2 [(1 : ℚ)] 1 1, npLinspace 0 2 2, npLinspace 0 2 2)
        = some ([[1]], [0, 2], [0, 2])
    rw [hlin, show reshape2 [(1 : ℚ)] 1 1 = [[1]] from rfl]

/-- Truncation of a rational with denominator 1 is its numerator. -/
theorem ratTrunc_den_one (q : ℚ) (h : q.den = 1) : ratTrunc q = q.num := by
  unfold ratTrunc
  rw [h, Nat.div_one, Int.sign_mul_natAbs]

/-- Sum of a right-scaled list is the scaled sum. -/
theorem sum_map_mul_right (l : List ℚ) (s : ℚ) : (l.map (fun x => x * s)).sum = l.sum * s := by
  induction l with
  | nil => simp
  | cons a t ih => simp [ih, add_mul]

/-- The lower range bound falls into histogram bin 0 when the bin count is
positive and the range is nondegenerate. -/
theorem histBinIdx_lower (r : ℚ × ℚ) (bins : ℕ) (hb : 0 < bins) (hr : r.1 ≤ r.2) :
    histBinIdx r bins r.1 = some 0 := by
  unfold histBinIdx
  rw [if_pos ⟨le_refl r.1, hr⟩]
  rw [show (r.1 - r.1) / (r.2 - r.1) * (bins : ℚ) = 0 by rw [sub_self, zero_div, zero_mul]]
  rw [ratTrunc_zero]
  rw [if_neg (by exact_mod_cast hb.ne)]
  rfl

/-- Evaluation: the singleton sample at the lower range bound yields the
one-bin histogram [1]. -/
theorem npHistogram_single_lower :
    npHistogram [(0 : ℚ)] 1 (0, 1) none = [1] := by
  have hidx : histBinIdx ((0 : ℚ), (1 : ℚ)) 1 (0 : ℚ) = some 0 :=
    histBinIdx_lower ((0 : ℚ), (1 : ℚ)) 1 (by decide) (by norm_num)
  simp [npHistogram, hidx, show List.range 1 = [0] from rfl]

/-- C5: with a nonzero model-histogram sum, rescaling the model histogram by
`sum(data bins)/sum(model bins)` makes its total exactly equal to the data
histogram total (exact in rational arithmetic). -/
theorem fitscale_matches_data_sum (data fit : List ℚ) (bins : ℕ) (r : ℚ × ℚ)
    (w : Option (List ℚ)) (h : (npHistogram fit bins r w).sum ≠ 0) :
    (scaled_fithist data fit bins r w).sum = (npHistogram data bins r none).sum := by
  unfold scaled_fithist fitscale
  rw [sum_map_mul_right, mul_comm]
  exact div_mul_cancel₀ _ h

/-- C5 witness: concrete application with a one-sample data and model
array. -/
theorem fitscale_matches_data_sum_witness :
    (npHistogram [(0 : ℚ)] 1 (0, 1) none).sum ≠ 0
    ∧ (scaled_fithist [(0 : ℚ)] [(0 : ℚ)] 1 (0, 1) none).sum
        = (npHistogram [(0 : ℚ)] 1 (0, 1) none).sum := by
  have hne : (npHistogram [(0 : ℚ)] 1 (0, 1) none).sum ≠ 0 := by
    rw [npHistogram_single_lower]; norm_num
  exact ⟨hne, fitscale_matches_data_sum [0] [0] 1 (0, 1) none hne⟩

/-- Evaluation: the bin centers of one bin over (0, 1) are the half point. -/
theorem binCenters_unit : binCenters ((0 : ℚ), (1 : ℚ)) 1 = [1 / 2] := by
  simp only [binCenters, binEdges, npLinspace, show List.range 2 = [0, 1] from rfl,
    List.map_cons, List.map_nil, List.dropLast, List.tail, List.zip_cons_cons, List.zip_nil_right]
  norm_num

/-- Evaluation: the weighted one-sample histogram over one bin. -/
theorem npHistogram_single_lower_w :
    npHistogram [(0 : ℚ)] 1 (0, 1) (some [1]) = [1] := by
  have hidx : histBinIdx ((0 : ℚ), (1 : ℚ)) 1 (0 : ℚ) = some 0 :=
    histBinIdx_lower ((0 : ℚ), (1 : ℚ)) 1 (by decide) (by norm_num)
  simp [npHistogram, hidx, show List.range 1 = [0] from rfl]

/-- Evaluation: the rescaling factor of the one-sample comparison is 1. -/
theorem fitscale_unit : fitscale [(0 : ℚ)] [(0 : ℚ)] 1 (0, 1) none = 1 := by
  unfold fitscale
  rw [npHistogram_single_lower]
  norm_num

/-- C3 counterexample: the sole component curve of a concrete comparison is
plotted against the bin centers (a single point at the bin middle), not
against the duplicated-edge step x array of the model step line, so the
component curve is not drawn as a step line. -/
theorem component_curve_not_step_counterexample :
    (plot_distr1d_comparison [0] [0] 1 (0, 1) none false (some [[1]])).components
      = [([1 / 2], [1])]
    ∧ (plot_distr1d_comparison [0] [0] 1 (0, 1) none false (some [[1]])).stepX = [0, 1]
    ∧ ([(1 : ℚ) / 2] : List ℚ) ≠ [0, 1] := by
  refine ⟨?_, ?_, ?_⟩
  · simp only [plot_distr1d_comparison, List.map_cons, List.map_nil]
    rw [binCenters_unit]
    simp only [pyTruthyWeights, Bool.false_eq_true, if_false]
    rw [npHistogram_single_lower_w, fitscale_unit]
    norm_num
  · simp only [plot_distr1d_comparison, transposeFlatten, binEdges, npLinspace,
      show List.range 2 = [0, 1] from rfl, List.map_cons, List.map_nil, List.dropLast,
      List.tail, List.zip_cons_cons, List.zip_nil_right, List.flatMap_cons, List.flatMap_nil]
    norm_num
  · intro h
    have hlen := congrArg List.length h
    simp at hlen

/-- C3 (amended): each component curve is drawn as a polyline through the
bin centers (not as a duplicated-edge step line), with y values the
component-weighted model histogram scaled by the shared rescaling factor,
the effective per-sample weight being the element-wise product
`w * weights` when a truthy shared weight array is supplied and the
component weight `w` alone otherwise. -/
theorem component_curves_centers_scaled (data fit : List ℚ) (bins : ℕ) (r : ℚ × ℚ)
    (ws : List ℚ) (hws : ws ≠ []) (cws : List (List ℚ)) (pull : Bool) (i : ℕ)
    (hi : i < cws.length) :
    (plot_distr1d_comparison data fit bins r (some ws) pull (some cws)).components[i]?
      = some (binCenters r bins,
          (npHistogram fit bins r (some ((cws.getD i []).zipWith (fun a b => a * b) ws))).map
            (fun h => h * fitscale data fit bins r (some ws)))
    ∧ (plot_distr1d_comparison data fit bins r none pull (some cws)).components[i]?
      = some (binCenters r bins,
          (npHistogram fit bins r (some (cws.getD i []))).map
            (fun h => h * fitscale data fit bins r none)) := by
  have htruthy : pyTruthyWeights (some ws) = true := by
    simp [pyTruthyWeights, hws]
  have hgetD : cws.getD i [] = cws[i] := List.getD_eq_getElem cws [] hi
  have hmap : ∀ (f : List ℚ → List ℚ × List ℚ), (cws.map f)[i]? = some (f cws[i]) := by
    intro f
    simp [List.getElem?_eq_getElem (by simpa using hi : i < (cws.map f).length)]
  refine ⟨?_, ?_⟩
  · simp only [plot_distr1d_comparison]
    rw [hmap, hgetD]
    simp [htruthy]
  · simp only [plot_distr1d_comparison]
    rw [hmap, hgetD]
    simp [pyTruthyWeights]

/-- C3 witness: concrete application of the amended component-curve
theorem with a shared weight array. -/
theorem component_curves_centers_scaled_witness :
    (plot_distr1d_comparison [0] [0] 1 ((0 : ℚ), (1 : ℚ)) (some [2]) false
        (some [[1]])).components[0]?
      = some (binCenters ((0 : ℚ), (1 : ℚ)) 1,
          (npHistogram [0] 1 ((0 : ℚ), (1 : ℚ))
              (some (([1] : List ℚ).zipWith (fun a b => a * b) [2]))).map
            (fun h => h * fitscale [0] [0] 1 ((0 : ℚ), (1 : ℚ)) (some [2]))) := by
  exact (component_curves_centers_scaled [0] [0] 1 (0, 1) [2] (by simp) [[1]] false 0
    (by decide)).1

/-- Elementwise characterization of the pull array: 0 wherever the data
count is 0 regardless of the model value, and the real quotient
`(data - model)/sqrt(data)` at every bin with nonzero data count. -/
theorem pullhist_get_spec (dh fh : List ℚ) (i : ℕ) (h : i < (pullhist dh fh).length) :
    (dh.getD i 0 = 0 → (pullhist dh fh).get ⟨i, h⟩ = 0)
    ∧ (dh.getD i 0 ≠ 0 → (pullhist dh fh).get ⟨i, h⟩
        = (((dh.getD i 0 : ℚ) : ℝ) - ((fh.getD i 0 : ℚ) : ℝ))
          / Real.sqrt ((dh.getD i 0 : ℚ) : ℝ)) := by
  have hlen : i < (dh.zip fh).length := by simpa [pullhist] using h
  have hd : i < dh.length := by rw [List.length_zip] at hlen; omega
  have hf : i < fh.length := by rw [List.length_zip] at hlen; omega
  have hget : (pullhist dh fh).get ⟨i, h⟩
      = (if dh[i] = 0 then 0
         else (((dh[i] : ℚ) : ℝ) - ((fh[i] : ℚ) : ℝ)) / Real.sqrt ((dh[i] : ℚ) : ℝ)) := by
    simp [pullhist, List.get_eq_getElem, List.getElem_map, List.getElem_zip]
  rw [List.getD_eq_getElem dh 0 hd, List.getD_eq_getElem fh 0 hf]
  constructor
  · intro h0; rw [hget, if_pos h0]
  · intro h0; rw [hget, if_neg h0]

/-- C6: with pull requested, the comparison renderer creates exactly one
twin-axis overlay with display range -10 to 10 and returns it as a
one-element sequence (empty when pull is not requested); the pull computed
from the data histogram and the rescaled model histogram is exactly 0 at
every bin with data count 0 regardless of model value (no division error),
and equals (data - scaled model)/sqrt(data) at every bin with nonzero data
count. -/
theorem comparison_pull_spec (data fit : List ℚ) (bins : ℕ) (r : ℚ × ℚ)
    (w : Option (List ℚ)) (cw : Option (List (List ℚ))) :
    (plot_distr1d_comparison data fit bins r w true cw).pullAxes.length = 1
    ∧ (∀ a ∈ (plot_distr1d_comparison data fit bins r w true cw).pullAxes,
        a.ylimBottom = -10 ∧ a.ylimTop = 10)
    ∧ (plot_distr1d_comparison data fit bins r w false cw).pullAxes = []
    ∧ (plot_distr1d_comparison data fit bins r w true cw).datahist = npHistogram data bins r none
    ∧ (plot_distr1d_comparison data fit bins r w true cw).fithist
        = scaled_fithist data fit bins r w
    ∧ ∀ (i : ℕ) (h : i < (pullhist (npHistogram data bins r none)
          (scaled_fithist data fit bins r w)).length),
        ((npHistogram data bins r none).getD i 0 = 0 →
          (pullhist (npHistogram data bins r none)
            (scaled_fithist data fit bins r w)).get ⟨i, h⟩ = 0)
        ∧ ((npHistogram data bins r none).getD i 0 ≠ 0 →
          (pullhist (npHistogram data bins r none)
            (scaled_fithist data fit bins r w)).get ⟨i, h⟩
            = ((((npHistogram data bins r none).getD i 0 : ℚ) : ℝ)
                - (((scaled_fithist data fit bins r w).getD i 0 : ℚ) : ℝ))
              / Real.sqrt (((npHistogram data bins r none).getD i 0 : ℚ) : ℝ)) := by
  refine ⟨?_, ?_, ?_, ?_, ?_, ?_⟩
  · simp [plot_distr1d_comparison]
  · simp [plot_distr1d_comparison]
  · simp [plot_distr1d_comparison]
  · simp [plot_distr1d_comparison]
  · simp [plot_distr1d_comparison]
  · intro i h
    exact pullhist_get_spec (npHistogram data bins r none)
      (scaled_fithist data fit bins r w) i h

/-- Evaluation: the sample at the upper range bound of (0,2) with two bins
falls into the last bin (index 1). -/
theorem histBinIdx_two : histBinIdx ((0 : ℚ), (2 : ℚ)) 2 2 = some 1 := by
  unfold histBinIdx
  rw [if_pos (by constructor <;> norm_num)]
  rw [show ((2 : ℚ) - ((0 : ℚ), (2 : ℚ)).1) / (((0 : ℚ), (2 : ℚ)).2 - ((0 : ℚ), (2 : ℚ)).1)
      * ((2 : ℕ) : ℚ) = 2 by norm_num]
  rw [ratTrunc_den_one 2 (Rat.den_ofNat 2), show ((2 : ℚ).num) = 2 from Rat.num_ofNat 2]
  norm_num

/-- Evaluation: data histogram of the single sample 0 over two bins. -/
theorem npHistogram_pair_data : npHistogram [(0 : ℚ)] 2 (0, 2) none = [1, 0] := by
  have h0 : histBinIdx ((0 : ℚ), (2 : ℚ)) 2 (0 : ℚ) = some 0 :=
    histBinIdx_lower ((0 : ℚ), (2 : ℚ)) 2 (by decide) (by norm_num)
  simp [npHistogram, h0, show List.range 2 = [0, 1] from rfl]

/-- Evaluation: model histogram of the single sample 2 over two bins. -/
theorem npHistogram_pair_fit : npHistogram [(2 : ℚ)] 2 (0, 2) none = [0, 1] := by
  simp [npHistogram, histBinIdx_two, show List.range 2 = [0, 1] from rfl]

/-- Evaluation: the rescaled model histogram of the concrete comparison. -/
theorem scaled_fithist_pair : scaled_fithist [(0 : ℚ)] [(2 : ℚ)] 2 (0, 2) none = [0, 1] := by
  unfold scaled_fithist fitscale
  rw [npHistogram_pair_data, npHistogram_pair_fit]
  norm_num

/-- C6 witness: with data [0] and model [2] over two bins of (0,2), bin 1
has data count 0 but model mass 1, one pull overlay is created, and the
theorem gives pull exactly 0 in that bin. -/
theorem comparison_pull_spec_witness :
    (plot_distr1d_comparison [0] [2] 2 ((0 : ℚ), (2 : ℚ)) none true none).pullAxes.length = 1
    ∧ (pullhist (npHistogram [(0 : ℚ)] 2 ((0 : ℚ), (2 : ℚ)) none)
        (scaled_fithist [(0 : ℚ)] [(2 : ℚ)] 2 ((0 : ℚ), (2 : ℚ)) none)).get
        ⟨1, by simp [pullhist, npHistogram_pair_data, scaled_fithist_pair]⟩ = 0 := by
  constructor
  · exact (comparison_pull_spec [0] [2] 2 (0, 2) none none).1
  · have hlen : 1 < (pullhist (npHistogram [(0 : ℚ)] 2 ((0 : ℚ), (2 : ℚ)) none)
        (scaled_fithist [(0 : ℚ)] [(2 : ℚ)] 2 ((0 : ℚ), (2 : ℚ)) none)).length := by
      simp [pullhist, npHistogram_pair_data, scaled_fithist_pair]
    have hzero : (npHistogram [(0 : ℚ)] 2 ((0 : ℚ), (2 : ℚ)) none).getD 1 0 = 0 := by
      rw [npHistogram_pair_data]
      rfl
    exact ((comparison_pull_spec [0] [2] 2 (0, 2) none none).2.2.2.2.2 1 hlen).1 hzero

/-- With pull requested the comparison renderer creates exactly one twin
axis (unfolding used by the display lemmas). -/
theorem pullAxes_length_pull_true (data fit : List ℚ) (bins : ℕ) (r : ℚ × ℚ)
    (w : Option (List ℚ)) (cw : Option (List (List ℚ))) :
    (plot_distr1d_comparison data fit bins r w true cw).pullAxes.length = 1 := by
  simp [plot_distr1d_comparison]

/-- One step of the 1D-panel loop: one axis with the next fresh id is
created and tracked. -/
theorem draw1dLoop_cons (s : MultidimDisplay) (sw : List ℚ) (i : ℕ) (rest : List ℕ) (n : ℕ) :
    draw1dLoop s sw (i :: rest) n
      = (n :: (draw1dLoop s sw rest (n + 1)).1,
         DrawEvent.clearAxis (0, i)
           :: (DrawEvent.createOverlay n :: (draw1dLoop s sw rest (n + 1)).2)) := by
  simp only [draw1dLoop]
  rw [pullAxes_length_pull_true]
  simp [show List.range 1 = [0] from rfl]

/-- The 1D-panel loop creates exactly one tracked axis per panel index. -/
theorem draw1dLoop_fst_length (s : MultidimDisplay) (sw : List ℚ) :
    ∀ (l : List ℕ) (n : ℕ), ((draw1dLoop s sw l n).1).length = l.length := by
  intro l
  induction l with
  | nil => intro n; rfl
  | cons i rest ih =>
    intro n
    rw [draw1dLoop_cons]
    simp [ih (n + 1)]

/-- Axis ids created by the 1D-panel loop lie in the fresh range. -/
theorem draw1dLoop_fst_bounds (s : MultidimDisplay) (sw : List ℚ) :
    ∀ (l : List ℕ) (n a : ℕ), a ∈ (draw1dLoop s sw l n).1 → n ≤ a ∧ a < n + l.length := by
  intro l
  induction l with
  | nil => intro n a ha; simp [draw1dLoop] at ha
  | cons i rest ih =>
    intro n a ha
    rw [draw1dLoop_cons] at ha
    rcases List.mem_cons.mp ha with rfl | ha
    · simp
    · have h2 := ih (n + 1) a ha
      constructor <;> [omega; (simp only [List.length_cons]; omega)]

/-- The 1D-panel loop never emits an axis-removal event. -/
theorem draw1dLoop_no_remove (s : MultidimDisplay) (sw : List ℚ) :
    ∀ (l : List ℕ) (n id : ℕ), DrawEvent.removeAxis id ∉ (draw1dLoop s sw l n).2 := by
  intro l
  induction l with
  | nil => intro n id h; simp [draw1dLoop] at h
  | cons i rest ih =>
    intro n id h
    rw [draw1dLoop_cons] at h
    rcases List.mem_cons.mp h with h | h
    · exact absurd h (by simp)
    · rcases List.mem_cons.mp h with h | h
      · exact absurd h (by simp)
      · exact ih (n + 1) id h

/-- The 1D-panel loop never emits a 2D density plot event. -/
theorem draw1dLoop_no_plot2d (s : MultidimDisplay) (sw : List ℚ) :
    ∀ (l : List ℕ) (n : ℕ) (pos : ℕ × ℕ) (b : Bool),
      DrawEvent.plot2d pos b ∉ (draw1dLoop s sw l n).2 := by
  intro l
  induction l with
  | nil => intro n pos b h; simp [draw1dLoop] at h
  | cons i rest ih =>
    intro n pos b h
    rw [draw1dLoop_cons] at h
    rcases List.mem_cons.mp h with h | h
    · exact absurd h (by simp)
    · rcases List.mem_cons.mp h with h | h
      · exact absurd h (by simp)
      · exact ih (n + 1) pos b h

/-- An overlay-creation event appears in the 1D-panel loop trace exactly
for the tracked axis ids it returns. -/
theorem draw1dLoop_overlay_iff (s : MultidimDisplay) (sw : List ℚ) :
    ∀ (l : List ℕ) (n a : ℕ),
      DrawEvent.createOverlay a ∈ (draw1dLoop s sw l n).2 ↔ a ∈ (draw1dLoop s sw l n).1 := by
  intro l
  induction l with
  | nil => intro n a; simp [draw1dLoop]
  | cons i rest ih =>
    intro n a
    rw [draw1dLoop_cons]
    simp only [List.mem_cons]
    rw [← ih (n + 1) a]
    constructor
    · rintro (h | h | h)
      · exact absurd h (by simp)
      · left; exact (DrawEvent.createOverlay.injEq a n).mp h
      · right; exact h
    · rintro (rfl | h)
      · right; left; rfl
      · right; right; exact h

/-- Every event of the 2D-panel loop is a panel clear or a density plot
carrying the flag the loop was given. -/
theorem draw2dEvents_mem (dim : ℕ) (f : Bool) :
    ∀ e ∈ draw2dEvents dim f,
      (∃ pos, e = DrawEvent.clearAxis pos) ∨ ∃ pos, e = DrawEvent.plot2d pos f := by
  intro e he
  simp only [draw2dEvents, List.mem_flatMap] at he
  obtain ⟨p, _, hmem⟩ := he
  rcases List.mem_cons.mp hmem with h | h
  · left; exact ⟨_, h⟩
  · rcases List.mem_cons.mp h with h | h
    · right; exact ⟨_, h⟩
    · exact absurd h (List.not_mem_nil e)

/-- Unfoldings of `MultidimDisplay.draw` used by the display theorems. -/
theorem multidim_draw_unfold (s : MultidimDisplay) (w : List ℚ) :
    (s.draw w).1.newaxes
        = (draw1dLoop s (w.map (fun x => ((s.size : ℚ) / w.sum) * x))
            (List.range s.dim) s.nextId).1
    ∧ (s.draw w).2
        = s.newaxes.map DrawEvent.removeAxis
          ++ ((draw1dLoop s (w.map (fun x => ((s.size : ℚ) / w.sum) * x))
              (List.range s.dim) s.nextId).2
            ++ draw2dEvents s.dim s.first)
    ∧ (s.draw w).1.nextId = s.nextId + (s.draw w).1.newaxes.length
    ∧ (s.draw w).1.dim = s.dim
    ∧ (s.draw w).1.first = false := by
  refine ⟨rfl, ?_, rfl, rfl, rfl⟩
  simp [MultidimDisplay.draw, List.append_assoc]

/-- C7: every `draw` call leaves exactly `dim` tracked transient overlay
axes (one pull overlay per 1D panel), all previously tracked overlays are
removed at the head of the trace before any overlay-creation event, the
newly tracked overlays are fresh (disjoint from the previous ones, given
well-formed tracking), the well-formedness is preserved, and a repeated
`draw` call again leaves exactly `dim` tracked overlays. -/
theorem multidim_draw_overlay_count (s : MultidimDisplay) (w w2 : List ℚ)
    (hwf : ∀ a ∈ s.newaxes, a < s.nextId) :
    ((s.draw w).1.newaxes.length = s.dim)
    ∧ ((s.draw w).1.dim = s.dim)
    ∧ (∃ rest, (s.draw w).2 = s.newaxes.map DrawEvent.removeAxis ++ rest
        ∧ (∀ id, DrawEvent.removeAxis id ∉ rest)
        ∧ (∀ a, DrawEvent.createOverlay a ∈ rest ↔ a ∈ (s.draw w).1.newaxes))
    ∧ (∀ a ∈ (s.draw w).1.newaxes, a ∉ s.newaxes)
    ∧ (∀ a ∈ (s.draw w).1.newaxes, a < (s.draw w).1.nextId)
    ∧ (((s.draw w).1.draw w2).1.newaxes.length = s.dim) := by
  have hlen : ∀ (t : MultidimDisplay) (v : List ℚ), (t.draw v).1.newaxes.length = t.dim := by
    intro t v
    rw [(multidim_draw_unfold t v).1, draw1dLoop_fst_length]
    exact List.length_range t.dim
  have hnew := (multidim_draw_unfold s w).1
  have hbound : ∀ a ∈ (s.draw w).1.newaxes, s.nextId ≤ a ∧ a < s.nextId + s.dim := by
    intro a ha
    rw [hnew] at ha
    have h := draw1dLoop_fst_bounds s _ (List.range s.dim) s.nextId a ha
    rwa [List.length_range] at h
  refine ⟨hlen s w, (multidim_draw_unfold s w).2.2.2.1, ?_, ?_, ?_, ?_⟩
  · refine ⟨_, (multidim_draw_unfold s w).2.1, ?_, ?_⟩
    · intro id h
      rcases List.mem_append.mp h with h | h
      · exact draw1dLoop_no_remove s _ (List.range s.dim) s.nextId id h
      · rcases draw2dEvents_mem s.dim s.first _ h with ⟨pos, he⟩ | ⟨pos, he⟩ <;> simp at he
    · intro a
      constructor
      · intro h
        rcases List.mem_append.mp h with h | h
        · rw [hnew]
          exact (draw1dLoop_overlay_iff s _ (List.range s.dim) s.nextId a).mp h
        · rcases draw2dEvents_mem s.dim s.first _ h with ⟨pos, he⟩ | ⟨pos, he⟩ <;> simp at he
      · intro h
        apply List.mem_append_left
        rw [hnew] at h
        exact (draw1dLoop_overlay_iff s _ (List.range s.dim) s.nextId a).mpr h
  · intro a ha hmem
    have h1 := (hbound a ha).1
    have h2 := hwf a hmem
    omega
  · intro a ha
    have h1 := (hbound a ha).2
    rw [(multidim_draw_unfold s w).2.2.1, hlen s w]
    omega
  · rw [hlen ((s.draw w).1) w2, (multidim_draw_unfold s w).2.2.2.1]

/-- C7 witness: a concrete two-dimensional display with one stale tracked
axis; a draw leaves exactly two tracked overlays. -/
theorem multidim_draw_overlay_count_witness :
    ((⟨2, [[0, 0], [1, 1]], [[0, 0], [1, 1]], [1, 1], [(0, 1), (0, 1)], 2, true, [0], 1⟩
        : MultidimDisplay).draw [1]).1.newaxes.length = 2 := by
  exact (multidim_draw_overlay_count
    ⟨2, [[0, 0], [1, 1]], [[0, 0], [1, 1]], [1, 1], [(0, 1), (0, 1)], 2, true, [0], 1⟩
    [1] [1] (by decide)).1

/-- C8: the `first` flag starts true at construction, every `draw` passes
its current value as the colorbar option of every 2D panel redraw and then
sets it to false, and it is never reset, so every 2D redraw of a second
`draw` call carries `colorbar = false`. -/
theorem multidim_first_draw_colorbar (data norm : List (List ℚ)) (bins : List ℕ)
    (ranges : List (ℚ × ℚ)) (s : MultidimDisplay) (w w2 : List ℚ) :
    (MultidimDisplay.init data norm bins ranges).1.first = true
    ∧ (∀ pos b, DrawEvent.plot2d pos b ∈ (s.draw w).2 → b = s.first)
    ∧ ((s.draw w).1.first = false)
    ∧ (∀ pos b, DrawEvent.plot2d pos b ∈ ((s.draw w).1.draw w2).2 → b = false) := by
  have hplot : ∀ (t : MultidimDisplay) (v : List ℚ) (pos : ℕ × ℕ) (b : Bool),
      DrawEvent.plot2d pos b ∈ (t.draw v).2 → b = t.first := by
    intro t v pos b h
    rw [(multidim_draw_unfold t v).2.1] at h
    rcases List.mem_append.mp h with h | h
    · obtain ⟨id, _, he⟩ := List.mem_map.mp h
      simp at he
    · rcases List.mem_append.mp h with h | h
      · exact absurd h (draw1dLoop_no_plot2d t _ (List.range t.dim) t.nextId pos b)
      · rcases draw2dEvents_mem t.dim t.first _ h with ⟨pos2, he⟩ | ⟨pos2, he⟩
        · simp at he
        · simpa using congrArg (fun e => match e with
            | DrawEvent.plot2d _ c => c
            | _ => b) he
  refine ⟨rfl, hplot s w, (multidim_draw_unfold s w).2.2.2.2, ?_⟩
  intro pos b h
  rw [hplot ((s.draw w).1) w2 pos b h]
  exact (multidim_draw_unfold s w).2.2.2.2

/-- C8 witness: on a concrete display with `first = true`, the first draw
emits a 2D redraw with colorbar true, and after the draw the flag is
false. -/
theorem multidim_first_draw_colorbar_witness :
    (((⟨2, [[0, 0], [1, 1]], [[0, 0], [1, 1]], [1, 1], [(0, 1), (0, 1)], 2, true, [0], 1⟩
        : MultidimDisplay).draw [1]).1.first = false)
    ∧ true = ((⟨2, [[0, 0], [1, 1]], [[0, 0], [1, 1]], [1, 1], [(0, 1), (0, 1)], 2, true, [0], 1⟩
        : MultidimDisplay) : MultidimDisplay).first := by
  have h := multidim_first_draw_colorbar [[0, 0]] [[0, 0]] [1] [(0, 1)]
    ⟨2, [[0, 0], [1, 1]], [[0, 0], [1, 1]], [1, 1], [(0, 1), (0, 1)], 2, true, [0], 1⟩
    [1] [1]
  exact ⟨h.2.2.1, h.2.1 (draw2dPos 2 0) true (by decide)⟩
